import Mathlib

/-!
Verification development for the clip_forge repository.

Shallow embedding of the pure core of the code base:

* `reconcile` / `reconcileStep` — the silence-segment reconciliation loop of
  `analyze_silence` (src/clipforge/analyzers/silence.py, lines 32–64), with the
  I/O-derived inputs (`probe(...).duration` and the detected silent ranges)
  abstracted as parameters.  Python floats are modelled as exact rationals `ℚ`.
* `parse_silence_ranges` and its helpers — the diagnostic-text parser of
  src/clipforge/ffutil.py (lines 70–87), including the regex scan for
  `silence_start: ([\d.]+)` / `silence_end: ([\d.]+)` and Python `float()`
  restricted to strings over digits and dots.
* `probeCheck` — the stream checks of `ffutil.probe` (lines 41–53).
* `process` — the progress-reporting behaviour of `engine.process`
  (src/clipforge/engine.py): the `(stage, fraction)` reports it emits and the
  uncaught `TypeError` that every silence-enabled run hits when
  `analyze_silence` forwards `on_progress=` to `ffutil.detect_silence`, whose
  signature has no such parameter.
* `apply_cuts` — the keep-segment filter and empty-guard of
  src/clipforge/editors/cut.py, with the delegate invocation represented by
  the `Except.ok` payload.
-/

namespace ClipForge

/-- Model of `models.TimeRange`: a start/end time pair in seconds (floats modelled as `ℚ`). -/
structure TimeRange where
  start : ℚ
  «end» : ℚ
deriving DecidableEq

/-- The `label` field of `models.Segment` takes only these string values. -/
inductive Label where
  | keep
  | silence
  | caption
deriving DecidableEq

/-- Model of `models.Segment`: a labeled time segment, optionally carrying transcript text. -/
structure Segment where
  start : ℚ
  «end» : ℚ
  label : Label
  text : Option String := none
deriving DecidableEq

/-- Loop body of the reconciliation loop in `analyze_silence`
(silence.py lines 39–54).  The state is `(cursor, segments)`; `sr` is the
current raw silence range. -/
def reconcileStep (duration padding : ℚ) (st : ℚ × List Segment) (sr : TimeRange) :
    ℚ × List Segment :=
  let cursor := st.1
  let silence_start0 := max (sr.start + padding) 0
  let silence_end := min (sr.«end» - padding) duration
  let silence_start := if silence_start0 < cursor then cursor else silence_start0
  if silence_end ≤ silence_start then st
  else
    let withKeep :=
      if silence_start > cursor then
        st.2 ++ [⟨cursor, silence_start, Label.keep, none⟩]
      else st.2
    (silence_end, withKeep ++ [⟨silence_start, silence_end, Label.silence, none⟩])

/-- The reconciliation core of `analyze_silence` (silence.py lines 32–64):
turns the probed `duration`, the detected `silent_ranges` and the configured
`padding` into the labeled segment list.  The probing and silence-detection
I/O of lines 21–30 is abstracted into the `duration` and `silent_ranges`
arguments. -/
def reconcile (duration : ℚ) (silent_ranges : List TimeRange) (padding : ℚ) :
    List Segment :=
  if silent_ranges = [] then [⟨0, duration, Label.keep, none⟩]
  else
    let st := silent_ranges.foldl (reconcileStep duration padding) (0, [])
    let segments :=
      if st.1 < duration then st.2 ++ [⟨st.1, duration, Label.keep, none⟩] else st.2
    if segments = [] then [⟨0, duration, Label.keep, none⟩] else segments

/-- Predicate `chainFrom a b segs` says the segments in `segs` tile the interval from
`a` to `b`: the first starts at `a`, each segment is nonempty and ends where
the next begins, and the last ends at `b`. -/
def chainFrom (a b : ℚ) : List Segment → Prop
  | [] => a = b
  | s :: rest => s.start = a ∧ a < s.«end» ∧ chainFrom s.«end» b rest

/-- The partition shape claimed for the reconciler's output: nonempty, sorted
ascending by `start`, first segment starting at `0`, adjacent segments meeting
exactly, last segment ending at `d`. -/
def IsPartitionOf (d : ℚ) (segs : List Segment) : Prop :=
  segs ≠ [] ∧
  List.Chain' (fun a b => a.start ≤ b.start) segs ∧
  (∀ s ∈ segs.head?, s.start = 0) ∧
  List.Chain' (fun a b => a.«end» = b.start) segs ∧
  (∀ s ∈ segs.getLast?, s.«end» = d)

theorem chainFrom_append {a b c : ℚ} {l₁ l₂ : List Segment}
    (h₁ : chainFrom a b l₁) (h₂ : chainFrom b c l₂) : chainFrom a c (l₁ ++ l₂) := by
  induction l₁ generalizing a with
  | nil => simp only [chainFrom] at h₁; simpa [h₁] using h₂
  | cons s rest ih =>
    obtain ⟨hs, hlt, hrest⟩ := h₁
    exact ⟨hs, hlt, ih hrest⟩

theorem chainFrom_le {a b : ℚ} {l : List Segment} (h : chainFrom a b l) : a ≤ b := by
  induction l generalizing a with
  | nil => simp only [chainFrom] at h; exact le_of_eq h
  | cons s rest ih =>
    obtain ⟨_, hlt, hrest⟩ := h
    exact le_trans (le_of_lt hlt) (ih hrest)

theorem chainFrom_mem_lt {a b : ℚ} {l : List Segment} (h : chainFrom a b l) :
    ∀ s ∈ l, s.start < s.«end» := by
  induction l generalizing a with
  | nil => intro s hs; cases hs
  | cons t rest ih =>
    obtain ⟨ht, hlt, hrest⟩ := h
    intro s hs
    rcases List.mem_cons.mp hs with rfl | hs
    · exact ht ▸ hlt
    · exact ih hrest s hs

theorem chainFrom_adjacent {a b : ℚ} {l : List Segment} (h : chainFrom a b l) :
    List.Chain' (fun x y => x.«end» = y.start) l := by
  induction l generalizing a with
  | nil => exact List.chain'_nil
  | cons s rest ih =>
    obtain ⟨hs, _, hrest⟩ := h
    refine (List.chain'_cons'.mpr ⟨?_, ih hrest⟩)
    intro y hy
    cases rest with
    | nil => cases hy
    | cons t rs =>
      obtain ⟨ht, _, _⟩ := hrest
      simp only [List.head?_cons, Option.mem_def, Option.some.injEq] at hy
      subst hy; exact ht.symm

theorem chainFrom_sorted {a b : ℚ} {l : List Segment} (h : chainFrom a b l) :
    List.Chain' (fun x y => x.start ≤ y.start) l := by
  induction l generalizing a with
  | nil => exact List.chain'_nil
  | cons s rest ih =>
    obtain ⟨hs, hlt, hrest⟩ := h
    refine (List.chain'_cons'.mpr ⟨?_, ih hrest⟩)
    intro y hy
    cases rest with
    | nil => cases hy
    | cons t rs =>
      obtain ⟨ht, _, _⟩ := hrest
      simp only [List.head?_cons, Option.mem_def, Option.some.injEq] at hy
      subst hy
      rw [ht, hs]
      exact le_of_lt hlt

theorem chainFrom_getLast {a b : ℚ} {l : List Segment} (h : chainFrom a b l) :
    ∀ s ∈ l.getLast?, s.«end» = b := by
  induction l generalizing a with
  | nil => intro s hs; cases hs
  | cons t rest ih =>
    obtain ⟨_, _, hrest⟩ := h
    intro s hs
    cases rest with
    | nil =>
      simp only [chainFrom] at hrest
      simp only [List.getLast?_singleton, Option.mem_def, Option.some.injEq] at hs
      subst hs; exact hrest
    | cons u rs =>
      rw [List.getLast?_cons_cons] at hs
      exact ih hrest s hs

theorem isPartitionOf_of_chainFrom {d : ℚ} {segs : List Segment}
    (h : chainFrom 0 d segs) (hne : segs ≠ []) : IsPartitionOf d segs := by
  refine ⟨hne, chainFrom_sorted h, ?_, chainFrom_adjacent h, chainFrom_getLast h⟩
  intro s hs
  cases segs with
  | nil => cases hs
  | cons t rest =>
    obtain ⟨ht, _, _⟩ := h
    simp only [List.head?_cons, Option.mem_def, Option.some.injEq] at hs
    subst hs; exact ht

/-- Closed form of the loop body: the clamp of lines 44–45 is a `max` with the
cursor, the interval is skipped exactly when the padded end does not exceed the
clamped padded start, and otherwise an optional keep segment and the silence
segment are appended while the cursor advances to the padded end. -/
theorem reconcileStep_eq (d p cursor : ℚ) (segs : List Segment) (r : TimeRange) :
    reconcileStep d p (cursor, segs) r =
      if min (r.«end» - p) d ≤ max (max (r.start + p) 0) cursor then (cursor, segs)
      else
        (min (r.«end» - p) d,
          segs ++
            ((if cursor < max (max (r.start + p) 0) cursor then
                [⟨cursor, max (max (r.start + p) 0) cursor, Label.keep, none⟩]
              else []) ++
              [⟨max (max (r.start + p) 0) cursor, min (r.«end» - p) d,
                Label.silence, none⟩])) := by
  simp only [reconcileStep, gt_iff_lt]
  have hmax : (if max (r.start + p) 0 < cursor then cursor else max (r.start + p) 0)
      = max (max (r.start + p) 0) cursor := (max_def_lt _ _).symm
  rw [hmax]
  by_cases h1 : min (r.«end» - p) d ≤ max (max (r.start + p) 0) cursor
  · rw [if_pos h1, if_pos h1]
  · rw [if_neg h1, if_neg h1]
    by_cases h2 : cursor < max (max (r.start + p) 0) cursor
    · rw [if_pos h2, if_pos h2]
      simp [List.append_assoc]
    · rw [if_neg h2, if_neg h2]
      simp

/-- Invariant of the reconciliation loop: the cursor stays in `[0, d]` and
the emitted segments tile `[0, cursor]`. -/
theorem reconcile_foldl_inv (d p : ℚ) (rs : List TimeRange) :
    ∀ cursor segs, 0 ≤ cursor → cursor ≤ d → chainFrom 0 cursor segs →
      0 ≤ (rs.foldl (reconcileStep d p) (cursor, segs)).1 ∧
      (rs.foldl (reconcileStep d p) (cursor, segs)).1 ≤ d ∧
      chainFrom 0 (rs.foldl (reconcileStep d p) (cursor, segs)).1
        (rs.foldl (reconcileStep d p) (cursor, segs)).2 := by
  induction rs with
  | nil => intro cursor segs h0 hd hch; exact ⟨h0, hd, hch⟩
  | cons r rest ih =>
    intro cursor segs h0 hd hch
    simp only [List.foldl_cons, reconcileStep_eq]
    by_cases hskip : min (r.«end» - p) d ≤ max (max (r.start + p) 0) cursor
    · rw [if_pos hskip]
      exact ih cursor segs h0 hd hch
    · rw [if_neg hskip]
      push_neg at hskip
      have hcursor_ss : cursor ≤ max (max (r.start + p) 0) cursor := le_max_right _ _
      refine ih _ _ ?_ (min_le_right _ _) ?_
      · exact le_trans (le_trans h0 hcursor_ss) (le_of_lt hskip)
      · refine chainFrom_append hch ?_
        by_cases hgt : cursor < max (max (r.start + p) 0) cursor
        · rw [if_pos hgt]
          exact chainFrom_append (b := max (max (r.start + p) 0) cursor)
            ⟨rfl, hgt, rfl⟩ ⟨rfl, hskip, rfl⟩
        · rw [if_neg hgt]
          have heq : max (max (r.start + p) 0) cursor = cursor :=
            le_antisymm (le_of_not_lt hgt) hcursor_ss
          rw [List.nil_append]
          exact ⟨heq, heq ▸ hskip, rfl⟩

/-- The reconciler's output tiles `[0, d]` and is nonempty, for positive `d`. -/
theorem reconcile_chainFrom {d : ℚ} (p : ℚ) (rs : List TimeRange) (hd : 0 < d) :
    chainFrom 0 d (reconcile d rs p) ∧ reconcile d rs p ≠ [] := by
  by_cases hrs : rs = []
  · simp only [reconcile, if_pos hrs]
    exact ⟨⟨rfl, hd, rfl⟩, by simp⟩
  · obtain ⟨h0, hled, hch⟩ :=
      reconcile_foldl_inv d p rs 0 [] (le_refl 0) (le_of_lt hd) rfl
    simp only [reconcile, if_neg hrs]
    set st := rs.foldl (reconcileStep d p) ((0 : ℚ), ([] : List Segment)) with hst
    by_cases hlt : st.1 < d
    · have hne : st.2 ++ [⟨st.1, d, Label.keep, none⟩] ≠ [] := by simp
      rw [if_pos hlt, if_neg hne]
      exact ⟨chainFrom_append hch ⟨rfl, hlt, rfl⟩, hne⟩
    · have heq : st.1 = d := le_antisymm hled (le_of_not_lt hlt)
      rw [if_neg hlt]
      by_cases hnil : st.2 = []
      · rw [if_pos hnil]
        exact ⟨⟨rfl, hd, rfl⟩, by simp⟩
      · rw [if_neg hnil]
        exact ⟨heq ▸ hch, hnil⟩

/-- C1: for every valid input (positive duration, raw intervals ordered
ascending by `start` with `end > start`, nonnegative padding) the reconciler's
output is a partition of `[0, duration]`: nonempty, sorted ascending by
`start`, first segment starting at `0`, each segment ending where the next
starts, last segment ending at `duration`. -/
theorem reconcile_partition_of_valid (d p : ℚ) (rs : List TimeRange)
    (hd : 0 < d) (hp : 0 ≤ p)
    (hord : List.Chain' (fun a b => a.start ≤ b.start) rs)
    (hpos : ∀ r ∈ rs, r.start < r.«end») :
    IsPartitionOf d (reconcile d rs p) := by
  obtain ⟨hch, hne⟩ := reconcile_chainFrom p rs hd
  exact isPartitionOf_of_chainFrom hch hne

/-- Witness for C1 at `duration = 30`, one raw interval `[10, 15]`, padding `0`. -/
theorem reconcile_partition_of_valid_witness :
    (0 : ℚ) < 30 ∧ (0 : ℚ) ≤ 0 ∧
    IsPartitionOf 30 (reconcile 30 [⟨10, 15⟩] 0) :=
  ⟨by norm_num, le_refl 0,
    reconcile_partition_of_valid 30 0 [⟨10, 15⟩] (by norm_num) (le_refl 0)
      (List.chain'_singleton _) (by intro r hr; simp at hr; subst hr; norm_num)⟩

/-- C2 counterexample: at `duration = 0` (allowed by the claim's
`duration ≥ 0`) with no raw intervals, the reconciler returns the single
segment `[0, 0]`, which has `end ≤ start`. -/
theorem reconcile_degenerate_at_zero_duration :
    reconcile 0 [] 0 = [⟨0, 0, Label.keep, none⟩] ∧
    ¬ (∀ s ∈ reconcile 0 [] 0, s.start < s.«end») := by
  constructor
  · rfl
  · intro h
    have := h ⟨0, 0, Label.keep, none⟩ (by rw [show reconcile 0 [] 0
      = [⟨0, 0, Label.keep, none⟩] from rfl]; exact List.mem_singleton.mpr rfl)
    exact absurd this (lt_irrefl 0)

/-- C2 (amended): for positive duration and raw intervals with `end > start`,
no segment emitted by the reconciler has `end ≤ start`. -/
theorem reconcile_nondegenerate (d p : ℚ) (rs : List TimeRange)
    (hd : 0 < d) (hpos : ∀ r ∈ rs, r.start < r.«end») :
    ∀ s ∈ reconcile d rs p, s.start < s.«end» := by
  obtain ⟨hch, _⟩ := reconcile_chainFrom p rs hd
  exact chainFrom_mem_lt hch

/-- Witness for C2's amended theorem at `duration = 20`, one raw interval
`[17, 20]`, padding `0`. -/
theorem reconcile_nondegenerate_witness :
    (0 : ℚ) < 20 ∧
    ∀ s ∈ reconcile 20 [⟨17, 20⟩] 0, s.start < s.«end» :=
  ⟨by norm_num,
    reconcile_nondegenerate 20 0 [⟨17, 20⟩] (by norm_num)
      (by intro r hr; simp at hr; subst hr; norm_num)⟩

/-- Helper for C3: if every raw interval has its padded form eliminated
(`min (end - p) d ≤ max (start + p) 0`), the loop never leaves the initial
state `(0, [])`. -/
theorem reconcile_foldl_all_eliminated (d p : ℚ) (rs : List TimeRange)
    (h : ∀ r ∈ rs, min (r.«end» - p) d ≤ max (r.start + p) 0) :
    rs.foldl (reconcileStep d p) (0, []) = ((0 : ℚ), ([] : List Segment)) := by
  induction rs with
  | nil => rfl
  | cons r rest ih =>
    have hr := h r (List.mem_cons_self r rest)
    have hskip : min (r.«end» - p) d ≤ max (max (r.start + p) 0) 0 := by
      rw [max_eq_left (le_max_right (r.start + p) 0)]
      exact hr
    simp only [List.foldl_cons, reconcileStep_eq, if_pos hskip]
    exact ih (fun r' hr' => h r' (List.mem_cons_of_mem r hr'))

/-- C3: the reconciler returns the single keep segment `[0, duration]` in both
terminal cases — an empty raw interval list, and every raw interval eliminated
by padding (padded length `≤ 0`); in particular
`reconcile 30 [⟨10, 10.5⟩] 0.5 = [⟨0, 30, keep⟩]`. -/
theorem reconcile_terminal_single_keep (d p : ℚ) (rs : List TimeRange)
    (h : rs = [] ∨ ∀ r ∈ rs, min (r.«end» - p) d ≤ max (r.start + p) 0) :
    reconcile d rs p = [⟨0, d, Label.keep, none⟩] ∧
    reconcile 30 [⟨10, 10.5⟩] 0.5 = [⟨0, 30, Label.keep, none⟩] := by
  refine ⟨?_, by norm_num [reconcile, reconcileStep]⟩
  rcases h with hrs | hall
  · simp [reconcile, hrs]
  · by_cases hrs : rs = []
    · simp [reconcile, hrs]
    · simp only [reconcile, if_neg hrs, reconcile_foldl_all_eliminated d p rs hall]
      by_cases hd : (0 : ℚ) < d
      · rw [if_pos hd]
        simp
      · rw [if_neg hd]
        simp

/-- Witness for C3 at the elimination edge case `reconcile 30 [⟨10, 10.5⟩] 0.5`. -/
theorem reconcile_terminal_single_keep_witness :
    reconcile 30 [⟨10, 10.5⟩] 0.5 = [⟨0, 30, Label.keep, none⟩] :=
  (reconcile_terminal_single_keep 30 0.5 [⟨10, 10.5⟩]
    (Or.inr (by intro r hr; simp at hr; subst hr; norm_num))).1

/-- C6: each loop iteration computes `paddedStart = max (start + p) 0` and
`paddedEnd = min (end - p) d`, clamps `paddedStart` up to at least the cursor,
skips the interval (leaving the state unchanged) iff `paddedEnd ≤ paddedStart`
after clamping, and otherwise emits a keep segment `[cursor, paddedStart)`
exactly when `paddedStart > cursor`, emits the silence segment
`[paddedStart, paddedEnd)`, and advances the cursor to `paddedEnd`. -/
theorem reconcileStep_characterization (d p cursor : ℚ) (segs : List Segment)
    (r : TimeRange) :
    reconcileStep d p (cursor, segs) r =
      if min (r.«end» - p) d ≤ max (max (r.start + p) 0) cursor then (cursor, segs)
      else
        (min (r.«end» - p) d,
          segs ++
            ((if cursor < max (max (r.start + p) 0) cursor then
                [⟨cursor, max (max (r.start + p) 0) cursor, Label.keep, none⟩]
              else []) ++
              [⟨max (max (r.start + p) 0) cursor, min (r.«end» - p) d,
                Label.silence, none⟩])) :=
  reconcileStep_eq d p cursor segs r

/-! ### Diagnostic parser (`ffutil.parse_silence_ranges`, lines 70–87) -/

instance {ε α : Type _} [DecidableEq ε] [DecidableEq α] : DecidableEq (Except ε α) :=
  fun x y =>
    match x, y with
    | .ok a, .ok b =>
      if h : a = b then .isTrue (by rw [h])
      else .isFalse (by intro hc; cases hc; exact h rfl)
    | .error a, .error b =>
      if h : a = b then .isTrue (by rw [h])
      else .isFalse (by intro hc; cases hc; exact h rfl)
    | .ok _, .error _ => .isFalse (by intro hc; cases hc)
    | .error _, .ok _ => .isFalse (by intro hc; cases hc)

/-- Characters matched by the regex character class `[\d.]`. -/
def isNumChar (c : Char) : Bool := c.isDigit || c = '.'

/-- Helper `dropPrefixQ pat l` returns `some rest` when `l = pat ++ rest`, mirroring
the regex engine attempting the literal part of the pattern at the current
position. -/
def dropPrefixQ : List Char → List Char → Option (List Char)
  | [], l => some l
  | _ :: _, [] => none
  | p :: ps, c :: cs => if c = p then dropPrefixQ ps cs else none

/-- Fuel-indexed scan implementing `re.findall(pat ++ "([\d.]+)", text)` for a
literal `pat`: at each position try the literal followed by a maximal nonempty
run of `[\d.]` characters; on success record the group and resume after the
match, otherwise advance one character.  The fuel is the text length, which
bounds the number of scan steps. -/
def findNumGroupsAux (pat : List Char) : ℕ → List Char → List (List Char)
  | 0, _ => []
  | _, [] => []
  | fuel + 1, c :: rest =>
    match dropPrefixQ pat (c :: rest) with
    | some after =>
      let grp := after.takeWhile isNumChar
      if grp = [] then findNumGroupsAux pat fuel rest
      else grp :: findNumGroupsAux pat fuel (after.dropWhile isNumChar)
    | none => findNumGroupsAux pat fuel rest

/-- All groups captured by `re.findall(pat ++ "([\d.]+)", text)`. -/
def findNumGroups (pat : List Char) (text : List Char) : List (List Char) :=
  findNumGroupsAux pat text.length text

/-- The literal part of the pattern `silence_start: ([\d.]+)`. -/
def silenceStartPat : List Char := String.toList "silence_start: "

/-- The literal part of the pattern `silence_end: ([\d.]+)`. -/
def silenceEndPat : List Char := String.toList "silence_end: "

/-- Numeric value of a digit string, most significant first. -/
def digitsVal (cs : List Char) : ℕ :=
  cs.foldl (fun n c => 10 * n + (c.toNat - 48)) 0

/-- Value of a decimal string over digits with at most one dot. -/
def ratOfNumChars (cs : List Char) : ℚ :=
  let ip := cs.takeWhile (fun c => c != '.')
  let fp := (cs.dropWhile (fun c => c != '.')).drop 1
  (digitsVal ip : ℚ) + (digitsVal fp : ℚ) / (10 : ℚ) ^ fp.length

/-- Modelled from CPython `float()` restricted to strings over digits and `.`
(the only strings the regex group can produce): parsing succeeds iff the
string has at most one dot and at least one digit, otherwise `float()` raises
`ValueError` (e.g. on `"1.2.3"` or `"."`). -/
def pyFloat (cs : List Char) : Option ℚ :=
  if cs.count '.' ≤ 1 ∧ cs.any Char.isDigit then some (ratOfNumChars cs) else none

/-- Model of `[float(m) for m in ...]`: converts every group, propagating the first
`ValueError` as an error. -/
def floatList : List (List Char) → Except String (List ℚ)
  | [] => .ok []
  | g :: rest =>
    match pyFloat g with
    | some q =>
      match floatList rest with
      | .ok qs => .ok (q :: qs)
      | .error e => .error e
    | none => .error "could not convert string to float"

/-- The pairing loop of `parse_silence_ranges` (ffutil.py lines 80–87):
`i` is the enumeration index of the current start. -/
def pairRangesGo (ends : List ℚ) (duration : Option ℚ) : ℕ → List ℚ → List TimeRange
  | _, [] => []
  | i, s :: rest =>
    match ends[i]? with
    | some e => ⟨s, e⟩ :: pairRangesGo ends duration (i + 1) rest
    | none =>
      match duration with
      | some d => ⟨s, d⟩ :: pairRangesGo ends duration (i + 1) rest
      | none => pairRangesGo ends duration (i + 1) rest

/-- Pairs the extracted start times with the extracted end times positionally;
a start with no matching end is closed at `duration` when known and dropped
otherwise. -/
def pairRanges (starts ends : List ℚ) (duration : Option ℚ) : List TimeRange :=
  pairRangesGo ends duration 0 starts

/-- Model of `ffutil.parse_silence_ranges`: extract the start and end markers from the
diagnostic text, convert them with `float()`, and pair them.  `Except.error`
models an uncaught `ValueError` escaping the function. -/
def parse_silence_ranges (stderr : String) (duration : Option ℚ) :
    Except String (List TimeRange) :=
  match floatList (findNumGroups silenceStartPat stderr.toList) with
  | .error e => .error e
  | .ok starts =>
    match floatList (findNumGroups silenceEndPat stderr.toList) with
    | .error e => .error e
    | .ok ends => .ok (pairRanges starts ends duration)

example :
    parse_silence_ranges "silence_start: 1.5\nsilence_end: 3.2\nsilence_start: 8" (some 10)
      = .ok [⟨3/2, 16/5⟩, ⟨8, 10⟩] := by with_unfolding_all rfl

example : parse_silence_ranges "size=0 speed=1x" none = .ok [] := by with_unfolding_all rfl

example : parse_silence_ranges "silence_start: 1.2.3" none
    = .error "could not convert string to float" := by with_unfolding_all rfl

/-- Closed form of the pairing loop: the starts that have a positional end
are zipped with those ends; the remaining starts are all closed at the
duration when it is known and all dropped otherwise. -/
theorem pairRangesGo_eq (ends : List ℚ) (dur : Option ℚ) :
    ∀ (starts : List ℚ) (i : ℕ),
      pairRangesGo ends dur i starts
        = List.zipWith (fun s e => (⟨s, e⟩ : TimeRange)) starts (ends.drop i)
          ++ (match dur with
              | some d => (starts.drop (ends.length - i)).map
                  (fun s => (⟨s, d⟩ : TimeRange))
              | none => []) := by
  intro starts
  induction starts with
  | nil => intro i; cases dur <;> simp [pairRangesGo]
  | cons s rest ih =>
    intro i
    simp only [pairRangesGo]
    cases hia : ends[i]? with
    | some e =>
      have hi : i < ends.length := by
        rw [List.getElem?_eq_some] at hia; exact hia.1
      have hie : ends[i] = e := by
        rw [List.getElem?_eq_some] at hia; exact hia.2
      have hdrop : ends.drop i = e :: ends.drop (i + 1) := by
        rw [List.drop_eq_getElem_cons hi, hie]
      have hsub : ends.length - i = (ends.length - (i + 1)) + 1 := by omega
      rw [ih (i + 1), hdrop, hsub]
      cases dur <;> simp [List.zipWith_cons_cons]
    | none =>
      have hi : ends.length ≤ i := by rwa [List.getElem?_eq_none_iff] at hia
      have hi1 : ends.length ≤ i + 1 := le_trans hi (Nat.le_succ i)
      have hdrop : ends.drop i = [] := List.drop_eq_nil_of_le hi
      have hsub : ends.length - i = 0 := Nat.sub_eq_zero_of_le hi
      have hsub1 : ends.length - (i + 1) = 0 := Nat.sub_eq_zero_of_le hi1
      cases dur with
      | none => rw [ih (i + 1)]; simp [hdrop, List.drop_eq_nil_of_le hi1]
      | some d => rw [ih (i + 1)]; simp [hdrop, List.drop_eq_nil_of_le hi1, hsub, hsub1]

/-- Closed form of `pairRanges` (index `0`). -/
theorem pairRanges_eq (starts ends : List ℚ) (dur : Option ℚ) :
    pairRanges starts ends dur
      = List.zipWith (fun s e => (⟨s, e⟩ : TimeRange)) starts ends
        ++ (match dur with
            | some d => (starts.drop ends.length).map (fun s => (⟨s, d⟩ : TimeRange))
            | none => []) := by
  have := pairRangesGo_eq ends dur starts 0
  simpa [pairRanges] using this

/-- C7: the parser pairs the `i`-th start with the `i`-th end positionally
wherever both exist; with exactly one more start than ends, the unpaired
trailing start is closed at the duration when it is known, and dropped when
the duration is unknown. -/
theorem pairRanges_single_unpaired (starts ends : List ℚ) (dur : Option ℚ)
    (hlen : starts.length = ends.length + 1) :
    (∀ (i : ℕ) (h1 : i < starts.length) (h2 : i < ends.length),
      (pairRanges starts ends dur)[i]? = some ⟨starts[i], ends[i]⟩) ∧
    (∀ T, dur = some T → ∀ s, starts.getLast? = some s →
      pairRanges starts ends dur
        = List.zipWith (fun a b => (⟨a, b⟩ : TimeRange)) starts ends ++ [⟨s, T⟩]) ∧
    (dur = none →
      pairRanges starts ends dur
        = List.zipWith (fun a b => (⟨a, b⟩ : TimeRange)) starts ends) := by
  refine ⟨?_, ?_, ?_⟩
  · intro i hi hie
    rw [pairRanges_eq]
    have hzlen : i < (List.zipWith (fun s e => (⟨s, e⟩ : TimeRange)) starts ends).length := by
      rw [List.length_zipWith]; exact lt_min hi hie
    rw [List.getElem?_append, if_pos hzlen, List.getElem?_zipWith']
    rw [List.getElem?_eq_getElem hi, List.getElem?_eq_getElem hie]
    rfl
  · intro T hT s hs
    subst hT
    rw [pairRanges_eq]
    have hone : (starts.drop ends.length).length = 1 := by
      rw [List.length_drop, hlen]; omega
    obtain ⟨a, ha⟩ := List.length_eq_one.mp hone
    have hsa : s = a := by
      have hsplit : starts.take ends.length ++ [a] = starts := by
        rw [← ha]; exact List.take_append_drop _ _
      have := List.getLast?_concat (starts.take ends.length) (a := a)
      rw [hsplit] at this
      rw [hs] at this
      exact Option.some_inj.mp this
    rw [ha, hsa]
    simp
  · intro h; subst h
    rw [pairRanges_eq]
    simp

/-- Witness for C7 with starts `[1, 8]`, ends `[2]`, duration `10` (and the
unknown-duration side at the same input). -/
theorem pairRanges_single_unpaired_witness :
    ([(1 : ℚ), 8].length = [(2 : ℚ)].length + 1) ∧
    pairRanges [1, 8] [2] (some 10)
      = List.zipWith (fun a b => (⟨a, b⟩ : TimeRange)) [1, 8] [2] ++ [⟨8, 10⟩] ∧
    pairRanges [1, 8] [2] none
      = List.zipWith (fun a b => (⟨a, b⟩ : TimeRange)) [1, 8] [2] :=
  ⟨by simp,
    (pairRanges_single_unpaired [1, 8] [2] (some 10) (by simp)).2.1 10 rfl 8 (by rfl),
    (pairRanges_single_unpaired [1, 8] [2] none (by simp)).2.2 rfl⟩

/-- C10: with a known duration `T` and `k ≥ 2` more starts than ends, every
one of the `k` unpaired starts yields an interval ending at `T` — not only a
single trailing one. -/
theorem pairRanges_all_unpaired_extended (starts ends : List ℚ) (T : ℚ)
    (hk : ends.length + 2 ≤ starts.length) :
    pairRanges starts ends (some T)
      = List.zipWith (fun a b => (⟨a, b⟩ : TimeRange)) starts ends
        ++ (starts.drop ends.length).map (fun s => (⟨s, T⟩ : TimeRange)) ∧
    2 ≤ ((starts.drop ends.length).map (fun s => (⟨s, T⟩ : TimeRange))).length ∧
    ∀ r ∈ (starts.drop ends.length).map (fun s => (⟨s, T⟩ : TimeRange)),
      r.«end» = T := by
  refine ⟨by rw [pairRanges_eq], ?_, ?_⟩
  · rw [List.length_map, List.length_drop]; omega
  · intro r hr
    obtain ⟨s, _, rfl⟩ := List.mem_map.mp hr
    rfl

/-- Witness for C10 with starts `[1, 5, 8]`, ends `[2]`, duration `10`. -/
theorem pairRanges_all_unpaired_extended_witness :
    ([(2 : ℚ)].length + 2 ≤ [(1 : ℚ), 5, 8].length) ∧
    pairRanges [1, 5, 8] [2] (some 10)
      = List.zipWith (fun a b => (⟨a, b⟩ : TimeRange)) [1, 5, 8] [2]
        ++ ([(1 : ℚ), 5, 8].drop [(2 : ℚ)].length).map
            (fun s => (⟨s, 10⟩ : TimeRange)) :=
  ⟨by simp, (pairRanges_all_unpaired_extended [1, 5, 8] [2] 10 (by simp)).1⟩

/-- If `float()` succeeds on every group, the comprehension returns a list. -/
theorem floatList_ok_of_all_some (gs : List (List Char))
    (h : ∀ g ∈ gs, (pyFloat g).isSome) : ∃ qs, floatList gs = .ok qs := by
  induction gs with
  | nil => exact ⟨[], rfl⟩
  | cons g rest ih =>
    have hg : (pyFloat g).isSome := h g (List.mem_cons_self g rest)
    obtain ⟨q, hq⟩ := Option.isSome_iff_exists.mp hg
    obtain ⟨qs, hqs⟩ := ih (fun g2 hg2 => h g2 (List.mem_cons_of_mem g hg2))
    refine ⟨q :: qs, ?_⟩
    simp only [floatList, hq, hqs]

/-- C8 counterexample: the diagnostic text `"silence_start: 1.2.3"` has a
recognizable start marker whose numeric group `"1.2.3"` matches `[\d.]+` but is
not a valid float literal, so `float()` raises `ValueError` and the parser
raises instead of returning a list. -/
theorem parse_silence_ranges_error_on_double_dot :
    parse_silence_ranges "silence_start: 1.2.3" none
      = .error "could not convert string to float" := by
  with_unfolding_all rfl

/-- C8 (amended): on text with no recognizable markers the parser returns the
empty list without error, and it never errors as long as every matched numeric
group is a valid float literal (at most one dot and at least one digit); it is
not total on arbitrary text. -/
theorem parse_silence_ranges_robust (t : String) (dur : Option ℚ) :
    (findNumGroups silenceStartPat t.toList = [] →
      findNumGroups silenceEndPat t.toList = [] →
      parse_silence_ranges t dur = .ok []) ∧
    ((∀ g ∈ findNumGroups silenceStartPat t.toList, (pyFloat g).isSome) →
      (∀ g ∈ findNumGroups silenceEndPat t.toList, (pyFloat g).isSome) →
      ∃ rs, parse_silence_ranges t dur = .ok rs) := by
  constructor
  · intro hs he
    simp only [parse_silence_ranges, hs, he]
    rfl
  · intro hs he
    obtain ⟨qs, hqs⟩ := floatList_ok_of_all_some _ hs
    obtain ⟨es, hes⟩ := floatList_ok_of_all_some _ he
    exact ⟨pairRanges qs es dur, by simp only [parse_silence_ranges, hqs, hes]⟩

/-- Witness for C8's amended theorem on ffmpeg output text with no silence
markers, and on a well-formed marker text. -/
theorem parse_silence_ranges_robust_witness :
    (findNumGroups silenceStartPat (String.toList "size=0 speed=1x") = []) ∧
    parse_silence_ranges "size=0 speed=1x" none = .ok [] ∧
    ∃ rs, parse_silence_ranges "silence_start: 4.5" (some 9) = .ok rs :=
  ⟨by with_unfolding_all rfl,
    (parse_silence_ranges_robust "size=0 speed=1x" none).1
      (by with_unfolding_all rfl) (by with_unfolding_all rfl),
    (parse_silence_ranges_robust "silence_start: 4.5" (some 9)).2
      (by intro g hg
          rw [show findNumGroups silenceStartPat "silence_start: 4.5".toList
              = [String.toList "4.5"] from by with_unfolding_all rfl] at hg
          simp only [List.mem_singleton] at hg
          subst hg
          with_unfolding_all rfl)
      (by intro g hg
          rw [show findNumGroups silenceEndPat "silence_start: 4.5".toList
              = [] from by with_unfolding_all rfl] at hg
          cases hg)⟩

/-! ### Probing (`ffutil.probe` lines 41–53, `engine.process` lines 49–58) -/

/-- The `codec_type` of a probed stream. -/
inductive CodecType where
  | video
  | audio
  | other
deriving DecidableEq

/-- The two fatal probe conditions: `ValueError` for a missing video stream
and `NoAudioStreamError` for a missing audio stream. -/
inductive ProbeError where
  | noVideo
  | noAudio
deriving DecidableEq

/-- The stream checks of `ffutil.probe` (lines 41–53): the first video stream
and the first audio stream are looked up; a missing video stream raises
`ValueError`, then a missing audio stream raises `NoAudioStreamError`. -/
def probeCheck (streams : List CodecType) : Except ProbeError Unit :=
  match streams.find? (fun s => s == CodecType.video),
        streams.find? (fun s => s == CodecType.audio) with
  | none, _ => .error ProbeError.noVideo
  | some _, none => .error ProbeError.noAudio
  | some _, some _ => .ok ()

/-- The probing stage of `engine.process` (line 50): `ffutil.probe` is invoked
unconditionally, before and independently of `manifest.silence_cut.enabled`,
which is the second argument here. -/
def probingStage (streams : List CodecType) (_silence_cut_enabled : Bool) :
    Except ProbeError Unit :=
  probeCheck streams

/-- C5 counterexample: a source with a video stream but no audio stream fails
probing with `NoAudioStreamError` even though silence-cut is not requested
(second argument `false`), contradicting the claim that it does not fail. -/
theorem probingStage_fails_video_only_without_silencecut :
    probingStage [CodecType.video] false = .error ProbeError.noAudio ∧
    probingStage [CodecType.video] false ≠ .ok () := by
  exact ⟨rfl, by intro h; cases h⟩

/-- C5 (amended): probing fails fatally exactly when the source has no video
stream or no audio stream, irrespective of whether silence-cut is requested;
the no-video check runs first and the no-audio failure is the distinguishable
`NoAudioStreamError`. -/
theorem probingStage_failure_characterization (streams : List CodecType)
    (silence_cut_enabled : Bool) :
    (probingStage streams silence_cut_enabled = .ok () ↔
      CodecType.video ∈ streams ∧ CodecType.audio ∈ streams) ∧
    (probingStage streams silence_cut_enabled = .error ProbeError.noVideo ↔
      CodecType.video ∉ streams) ∧
    (probingStage streams silence_cut_enabled = .error ProbeError.noAudio ↔
      CodecType.video ∈ streams ∧ CodecType.audio ∉ streams) ∧
    probingStage streams silence_cut_enabled = probingStage streams true := by
  have hvid : streams.find? (fun s => s == CodecType.video) = none ↔
      CodecType.video ∉ streams := by
    rw [List.find?_eq_none]
    constructor
    · intro h hmem
      have := h _ hmem
      simp at this
    · intro h x hx hbeq
      exact h (by rwa [show x = CodecType.video from by simpa using hbeq] at hx)
  have haud : streams.find? (fun s => s == CodecType.audio) = none ↔
      CodecType.audio ∉ streams := by
    rw [List.find?_eq_none]
    constructor
    · intro h hmem
      have := h _ hmem
      simp at this
    · intro h x hx hbeq
      exact h (by rwa [show x = CodecType.audio from by simpa using hbeq] at hx)
  unfold probingStage probeCheck
  cases hv : streams.find? (fun s => s == CodecType.video) with
  | none =>
    have hnv : CodecType.video ∉ streams := hvid.mp hv
    cases ha : streams.find? (fun s => s == CodecType.audio) <;>
      simp [hnv]
  | some v =>
    have hvmem : CodecType.video ∈ streams := by
      by_contra hc
      rw [hvid.mpr hc] at hv
      cases hv
    cases ha : streams.find? (fun s => s == CodecType.audio) with
    | none =>
      have hna : CodecType.audio ∉ streams := haud.mp ha
      simp [hvmem, hna]
    | some a =>
      have hamem : CodecType.audio ∈ streams := by
        by_contra hc
        rw [haud.mpr hc] at ha
        cases ha
      simp [hvmem, hamem]

/-! ### Cut application (`editors/cut.py` and `ffutil.concat_segments`) -/

/-- Model of `apply_cuts` (cut.py lines 10–27): filter the keep-labeled segments into
time ranges and fail with `ValueError` when none remain; the `Except.ok`
payload is the `keep_ranges` argument handed to `ffutil.concat_segments`
(the actual media I/O is the delegate's concern). -/
def apply_cuts (segments : List Segment) : Except String (List TimeRange) :=
  let keep_ranges :=
    (segments.filter (fun s => s.label == Label.keep)).map
      (fun s => (⟨s.start, s.«end»⟩ : TimeRange))
  if keep_ranges = [] then
    .error "No keep segments found — entire video would be removed"
  else .ok keep_ranges

/-- The guard of `ffutil.concat_segments` (lines 143–144): an empty segment
list raises `ValueError` before any command is built. -/
def concat_segments_check (segments : List TimeRange) : Except String Unit :=
  if segments = [] then
    .error "concat_segments called with empty segment list"
  else .ok ()

/-- C9: with zero keep-labeled segments `apply_cuts` raises the fatal error
instead of invoking the delegate, and whenever the delegate is invoked (the
`Except.ok` case) its range list is nonempty and passes the delegate's own
empty-list guard. -/
theorem apply_cuts_guard (segments : List Segment) :
    ((∀ s ∈ segments, s.label ≠ Label.keep) →
      apply_cuts segments
        = .error "No keep segments found — entire video would be removed") ∧
    (∀ rs, apply_cuts segments = .ok rs →
      rs ≠ [] ∧ concat_segments_check rs = .ok ()) := by
  constructor
  · intro h
    have hfil : segments.filter (fun s => s.label == Label.keep) = [] := by
      rw [List.filter_eq_nil_iff]
      intro s hs
      simpa using h s hs
    simp [apply_cuts, hfil]
  · intro rs hrs
    simp only [apply_cuts] at hrs
    by_cases hnil :
        (segments.filter (fun s => s.label == Label.keep)).map
          (fun s => (⟨s.start, s.«end»⟩ : TimeRange)) = []
    · rw [if_pos hnil] at hrs
      cases hrs
    · rw [if_neg hnil] at hrs
      obtain rfl : rs = _ := (Except.ok.injEq _ _ ▸ hrs.symm)
      refine ⟨hnil, ?_⟩
      rw [concat_segments_check, if_neg hnil]

/-- Witness for C9: a list with only silence segments errors; a list with a
keep segment yields a nonempty delegate invocation. -/
theorem apply_cuts_guard_witness :
    apply_cuts [⟨0, 5, Label.silence, none⟩]
      = .error "No keep segments found — entire video would be removed" ∧
    ([⟨0, 5⟩] : List TimeRange) ≠ [] ∧ concat_segments_check [⟨0, 5⟩] = .ok () :=
  ⟨(apply_cuts_guard [⟨0, 5, Label.silence, none⟩]).1
      (by intro s hs; simp at hs; subst hs; simp),
    (apply_cuts_guard [⟨0, 5, Label.keep, none⟩]).2 [⟨0, 5⟩] (by rfl)⟩

/-! ### Orchestrator progress reporting (`engine.process`) -/

/-- Outcome of one `engine.process` run: the `(stage, fraction)` progress
reports emitted through the caller-supplied callback, in emission order, and
the uncaught exception that terminated the run, if any. -/
structure ProcessRun where
  reports : List (String × ℚ)
  uncaught : Option String
deriving DecidableEq

/-- The fractions of a list of progress reports, in emission order. -/
def fracsOf (tr : List (String × ℚ)) : List ℚ := tr.map Prod.snd

/-- Progress behaviour of `engine.process` per manifest.  The external probe
and caption delegates are assumed to succeed (they are black-box I/O).  When
`manifest.silence_cut.enabled` is set, `process` reports `0.0`, `0.05`
(lines 49–52) and `0.06` (line 59), and then `analyze_silence`
(silence.py lines 24–30) calls `ffutil.detect_silence` with the keyword
argument `on_progress`, which that function does not accept (ffutil.py
lines 90–95): Python raises `TypeError` at the call, before any ffmpeg work
or sub-progress callback can run, and `engine.process` does not catch it, so
the run terminates with no further reports.  With silence-cut disabled, the
captioning stage (lines 88–95) reports `0.50` and `0.80` when enabled
(`transcribe` and `apply_captions` emit no progress of their own) and
finalization reports `0.85`, `0.92` and the final `1.0` (lines 98–112). -/
def process (silence_enabled captions_enabled : Bool) : ProcessRun :=
  if silence_enabled then
    { reports := [("Probing video metadata", 0), ("Probing video metadata", 0.05),
        ("Scanning audio for silence", 0.06)],
      uncaught := some
        "TypeError: detect_silence() got an unexpected keyword argument on_progress" }
  else
    { reports := [("Probing video metadata", 0), ("Probing video metadata", 0.05)]
        ++ (if captions_enabled then
              [("Transcribing audio", 0.50), ("Generating captions", 0.80)]
            else [])
        ++ [("Finalizing output", 0.85), ("Verifying result", 0.92), ("Done", 1)],
      uncaught := none }

/-- C4 counterexample: for a manifest with both silence-cut and captioning
enabled, `process` raises `TypeError` right after reporting `0.06` —
`analyze_silence` forwards `on_progress=` to `ffutil.detect_silence`, whose
signature has no such parameter — so the run reports only the fractions
`0, 0.05, 0.06` and never a final `1.0`. -/
theorem process_typeerror_when_silence_enabled :
    (process true true).uncaught
      = some "TypeError: detect_silence() got an unexpected keyword argument on_progress" ∧
    fracsOf (process true true).reports = [0, 0.05, 0.06] ∧
    (fracsOf (process true true).reports).getLast? ≠ some 1 := by
  refine ⟨rfl, rfl, ?_⟩
  intro h
  rw [show (fracsOf (process true true).reports).getLast? = some 0.06 from rfl] at h
  rw [Option.some_inj] at h
  norm_num at h

/-- C4 (amended): every reported fraction lies in `[0, 1]` for every manifest;
when silence-cut is disabled the run completes, its fractions are
monotonically non-decreasing and the final report is `1.0`; when silence-cut
is enabled the run terminates with an uncaught `TypeError` after reporting
exactly `0, 0.05, 0.06`, and never reports a final `1.0`. -/
theorem process_progress_reports (se ce : Bool) :
    (∀ x ∈ fracsOf (process se ce).reports, 0 ≤ x ∧ x ≤ 1) ∧
    (se = false →
      (process se ce).uncaught = none ∧
      List.Chain' (fun a b => a ≤ b) (fracsOf (process se ce).reports) ∧
      (fracsOf (process se ce).reports).getLast? = some 1) ∧
    (se = true →
      (process se ce).uncaught ≠ none ∧
      fracsOf (process se ce).reports = [0, 0.05, 0.06]) := by
  cases se with
  | false =>
    cases ce with
    | false =>
      refine ⟨?_, ?_, ?_⟩
      · intro x hx
        rw [show fracsOf (process false false).reports
            = [0, 0.05, 0.85, 0.92, 1] from rfl] at hx
        fin_cases hx <;> norm_num
      · intro _
        refine ⟨rfl, ?_, rfl⟩
        rw [show fracsOf (process false false).reports
            = [0, 0.05, 0.85, 0.92, 1] from rfl]
        norm_num [List.chain'_cons, List.chain'_singleton]
      · intro h; cases h
    | true =>
      refine ⟨?_, ?_, ?_⟩
      · intro x hx
        rw [show fracsOf (process false true).reports
            = [0, 0.05, 0.50, 0.80, 0.85, 0.92, 1] from rfl] at hx
        fin_cases hx <;> norm_num
      · intro _
        refine ⟨rfl, ?_, rfl⟩
        rw [show fracsOf (process false true).reports
            = [0, 0.05, 0.50, 0.80, 0.85, 0.92, 1] from rfl]
        norm_num [List.chain'_cons, List.chain'_singleton]
      · intro h; cases h
  | true =>
    cases ce with
    | false =>
      refine ⟨?_, ?_, ?_⟩
      · intro x hx
        rw [show fracsOf (process true false).reports
            = [0, 0.05, 0.06] from rfl] at hx
        fin_cases hx <;> norm_num
      · intro h; cases h
      · intro _
        exact ⟨by simp [process], rfl⟩
    | true =>
      refine ⟨?_, ?_, ?_⟩
      · intro x hx
        rw [show fracsOf (process true true).reports
            = [0, 0.05, 0.06] from rfl] at hx
        fin_cases hx <;> norm_num
      · intro h; cases h
      · intro _
        exact ⟨by simp [process], rfl⟩

/-- Witness for C4's amended theorem, at a captions-only manifest for the
completing branch and a both-enabled manifest for the crashing branch. -/
theorem process_progress_reports_witness :
    ((process false true).uncaught = none ∧
      List.Chain' (fun a b => a ≤ b) (fracsOf (process false true).reports) ∧
      (fracsOf (process false true).reports).getLast? = some 1) ∧
    ((process true true).uncaught ≠ none ∧
      fracsOf (process true true).reports = [0, 0.05, 0.06]) :=
  ⟨(process_progress_reports false true).2.1 rfl,
    (process_progress_reports true true).2.2 rfl⟩

end ClipForge
